import Mathlib

/-!
Shallow embedding of the Insurance Payment Analyzer (src/index.tsx).

Money amounts are modelled as rationals (ℚ); JavaScript
`(+v).toFixed(2)` re-parsed as a number is modelled by `round2`
(round half toward +∞ at two decimals).  the stable JavaScript
`Array.prototype.sort` with a total-preorder comparator is modelled by
`List.insertionSort`, which is also stable, with the comparator turned
into the corresponding relation.  Maps (`new Map`, `d3.rollup`,
`d3.group`) iterate in key-insertion order, i.e. first-occurrence
order; `dedupFirst` reproduces that order.
-/

namespace IPA

/-- Model of `(+x.toFixed(2))`: round to cents, ties toward +∞ (ECMAScript `toFixed`). -/
def round2 (q : ℚ) : ℚ := (⌊q * 100 + 1 / 2⌋ : ℤ) / 100

/-- Deduplicate keeping the first occurrence of each element, in order of
first occurrence (JS `Map` / `Set` insertion order). -/
def dedupFirst {α : Type} [DecidableEq α] : List α → List α
  | [] => []
  | a :: l => a :: (dedupFirst l).filter (fun b => b ≠ a)

/-- Model of `d3.max(l) ?? 0`. -/
def listMaxD : List ℚ → ℚ
  | [] => 0
  | [x] => x
  | x :: y :: l => max x (listMaxD (y :: l))

/-- Model of `d3.min(l) ?? 0`. -/
def listMinD : List ℚ → ℚ
  | [] => 0
  | [x] => x
  | x :: y :: l => min x (listMinD (y :: l))

/-- Model of `d3.mean(l) ?? 0`. -/
def d3mean (l : List ℚ) : ℚ := if l.length = 0 then 0 else l.sum / l.length

/-- Model of `d3.median(l) ?? 0` (R-7 quantile at 0.5: middle element, or the mean
of the two middle elements, of the ascending sort). -/
def d3median (l : List ℚ) : ℚ :=
  let s := l.insertionSort (· ≤ ·)
  let n := s.length
  if n = 0 then 0
  else if n % 2 = 1 then s.getD (n / 2) 0
  else (s.getD (n / 2 - 1) 0 + s.getD (n / 2) 0) / 2

/-! ### String helpers (Record Normalizer) -/

/-- Model of `String.prototype.trim()` (on the whitespace characters Lean knows). -/
def trimStr (s : String) : String :=
  String.mk (((s.toList.dropWhile Char.isWhitespace).reverse.dropWhile
      Char.isWhitespace).reverse)

/-- Model of `String.prototype.toUpperCase()` (ASCII). -/
def upperStr (s : String) : String := String.mk (s.toList.map Char.toUpper)

/-- Does `tok` start `hay`? -/
def startsWith : List Char → List Char → Bool
  | _, [] => true
  | [], _ :: _ => false
  | h :: t, a :: b => h = a && startsWith t b

/-- Model of `hay.includes(tok)`: `tok` occurs contiguously inside `hay`. -/
def containsSub : List Char → List Char → Bool
  | [], tok => tok.isEmpty
  | h :: t, tok => startsWith (h :: t) tok || containsSub t tok

/-- Model of the replace `/\s+/g → " "`: collapse every maximal whitespace run to one space. -/
def collapseWS : List Char → List Char
  | [] => []
  | [c] => if c.isWhitespace then [' '] else [c]
  | c :: d :: l =>
    if c.isWhitespace && d.isWhitespace then collapseWS (d :: l)
    else (if c.isWhitespace then ' ' else c) :: collapseWS (d :: l)

/-- Fuel-driven scanner for `hyphenFix` (the fuel, initially the length
of the list, dominates the number of steps, making the recursion
structural and kernel-reducible). -/
def hyphenFixGo : Nat → List Char → List Char
  | 0, l => l
  | _ + 1, [] => []
  | fuel + 1, a :: l =>
    match l with
    | '-' :: b :: rest =>
      if a.isWhitespace && b.isWhitespace then
        ' ' :: '-' :: ' ' :: hyphenFixGo fuel rest
      else a :: hyphenFixGo fuel l
    | _ => a :: hyphenFixGo fuel l

/-- Model of the replace `/\s+-\s+/g → " - "` on a string whose whitespace runs are single
characters (the state after `collapseWS`). -/
def hyphenFix (l : List Char) : List Char := hyphenFixGo l.length l

/-- Model of the replace `/\s+INC$/i → ""`: strip a trailing whitespace-then-"INC" (any case). -/
def stripInc (l : List Char) : List Char :=
  match l.reverse with
  | c :: n :: i :: rest =>
    if c.toLower = 'c' && n.toLower = 'n' && i.toLower = 'i'
        && (match rest with
            | w :: _ => w.isWhitespace
            | [] => false) then
      ((rest.dropWhile Char.isWhitespace).reverse)
    else l
  | _ => l

/-- The non-alias branch of `normalizeInsurance`:
`.replace(/\s+/g, " ").replace(/\s+-\s+/g, " - ").replace(/\s+INC$/i, "").trim()`. -/
def cleanupName (name : String) : String :=
  trimStr (String.mk (stripInc (hyphenFix (collapseWS name.toList))))

/-- The fixed enumerated United Health Care alias tokens. -/
def UHCTokens : List String :=
  ["UNITED HEALTH", "UNITED HEALTH CARE", "UNITED HEALTHCARE", "UHC",
   "UHC – UNITEDHEALTHCARE", "UHC-UNITEDHEALTHCARE",
   "UHC – UNITED HEALTH CARE", "UNITED HEALTH CARE INSURANCE"]

/-- Model of `UHCTokens.some((t) => upper.includes(t))` for `upper` the uppercased
trimmed name. -/
def matchesUHC (name : String) : Bool :=
  UHCTokens.any (fun t => containsSub (upperStr name).toList t.toList)

/-- Function `normalizeInsurance` from the source. -/
def normalizeInsurance (nameRaw : String) : String :=
  let name := trimStr nameRaw
  if matchesUHC name then "United Health Care" else cleanupName name

/-- Lexicographic order on UTF-16-ish char lists (JS default string sort). -/
def lexLe : List Char → List Char → Bool
  | [], _ => true
  | _ :: _, [] => false
  | a :: as, b :: bs => if a = b then lexLe as bs else decide (a < b)

/-- Function `normalizeModifiers` from the source: split on `[,\s]+`, uppercase,
dedupe (insertion order), sort lexicographically, join with `+`; an
empty set renders as `—`. -/
def normalizeModifiers (mod : String) : String :=
  if mod = "" then "—"
  else
    let toks := (mod.toList.splitOnP fun c => c = ',' || c.isWhitespace).filter
      (fun t => t ≠ [])
    let uniq := dedupFirst (toks.map (fun t => t.map Char.toUpper))
    if uniq = [] then "—"
    else String.mk
      (List.intercalate ['+'] (uniq.insertionSort fun a b => lexLe a b = true))

/-! ### Data model -/

/-- The grouping attributes `g` computed per line in `enrichRows`. -/
structure GroupFields where
  Insurance : String
  CPT : String
  POS : String
  Modifiers : String
  Units : String
deriving DecidableEq, Repr

/-- Function `buildKey` from the source. -/
def buildKey (g : GroupFields) : String :=
  g.Insurance ++ "|" ++ g.CPT ++ "|" ++ g.POS ++ "|" ++ g.Modifiers ++ "|" ++ g.Units

/-- Function `buildKeyNoUnits` from the source. -/
def buildKeyNoUnits (g : GroupFields) : String :=
  g.Insurance ++ "|" ++ g.CPT ++ "|" ++ g.POS ++ "|" ++ g.Modifiers

/-- A raw record, with the numeric fields already parsed by `toNum`
(string-to-number parsing is an external collaborator). -/
structure RawLine where
  Insurance : String
  CPT : String
  POS : String
  Modifiers : String
  Units : String
  Patient_Name : String
  Date_of_Service : String
  Charges : ℚ
  Insurance_Payment : ℚ
  Patient_Payment : ℚ
  Balance : ℚ
  Adjustment : ℚ
deriving DecidableEq, Repr

/-- A canonical line as produced by `enrichRows`.  `rawBalance` mirrors
the `Balance` field of the underlying `_row`, which the denial and
unpaid-patient detectors read back. -/
structure EnrichedLine where
  patient : String
  dos : String
  allowed : ℚ
  insurancePaid : ℚ
  charges : ℚ
  adjustment : ℚ
  rawBalance : ℚ
  g : GroupFields
deriving DecidableEq, Repr

/-- Function `computeAllowed` from the source. -/
def computeAllowed (r : RawLine) : ℚ :=
  round2 (|r.Insurance_Payment| + max 0 r.Patient_Payment + max 0 r.Balance)

/-- One line of `enrichRows`: lines whose trimmed CPT is empty are
dropped (`none`); the rest are enriched. -/
def enrich (r : RawLine) : Option EnrichedLine :=
  if trimStr r.CPT = "" then none
  else some
    { patient := trimStr r.Patient_Name
      dos := trimStr r.Date_of_Service
      allowed := computeAllowed r
      insurancePaid := |r.Insurance_Payment|
      charges := max 0 r.Charges
      adjustment := r.Adjustment
      rawBalance := r.Balance
      g :=
        { Insurance := normalizeInsurance r.Insurance
          CPT := trimStr r.CPT
          POS := trimStr r.POS
          Modifiers := normalizeModifiers r.Modifiers
          Units := if r.Units = "" then "1" else trimStr r.Units } }

/-- Function `enrichRows` over a list of raw records. -/
def enrichRows (raw : List RawLine) : List EnrichedLine :=
  raw.filterMap enrich

/-- The control parameters of one recompute.  `overrides key = some q`
models an override entry whose stored value parses as the number `q`. -/
structure Config where
  benchmark : String
  threshold : ℚ
  decontaminate : Bool
  includeUnitsInKey : Bool
  overrides : String → Option ℚ

/-- Function `keyFor` inside `buildGroups`. -/
def keyFor (cfg : Config) (g : GroupFields) : String :=
  if cfg.includeUnitsInKey then buildKey g else buildKeyNoUnits g

/-- The bucket keys of `buildGroups`, in `Map` insertion order. -/
def groupKeys (cfg : Config) (lines : List EnrichedLine) : List String :=
  dedupFirst (lines.map fun d => keyFor cfg d.g)

/-- The bucket of lines stored under key `k` by `buildGroups`. -/
def bucket (cfg : Config) (lines : List EnrichedLine) (k : String) :
    List EnrichedLine :=
  lines.filter fun d => keyFor cfg d.g = k

/-! ### Proxy resolution -/

/-- The active benchmark metric of a line. -/
def metricOf (cfg : Config) (d : EnrichedLine) : ℚ :=
  if cfg.benchmark = "paid" then d.insurancePaid else d.allowed

/-- Model of `Math.abs(d.allowed - d.charges) < 0.01`. -/
def eqChargesB (d : EnrichedLine) : Bool := |d.allowed - d.charges| < 1 / 100

/-- The candidate metric list for proxy selection, after the optional
decontamination step of `buildGroups`. -/
def metricForProxy (cfg : Config) (items : List EnrichedLine) : List ℚ :=
  let metricAll := items.map (metricOf cfg)
  if cfg.benchmark = "allowed" then
    let hasEq := items.any eqChargesB
    let hasDiff := items.any fun d => ¬ eqChargesB d
    let narrowed :=
      if cfg.decontaminate && hasEq && hasDiff then
        (items.filter fun d => ¬ eqChargesB d).map (fun d => d.allowed)
      else metricAll
    if narrowed = [] then metricAll else narrowed
  else metricAll

/-- The `(value, frequency)` entries of the frequency map of `l`, in key
insertion order (`new Map` / `d3.rollup`). -/
def freqEntries (l : List ℚ) : List (ℚ × ℕ) :=
  (dedupFirst l).map fun v => (v, l.count v)

/-- The comparator `(a, b) => (b[1] - a[1]) || (b[0] - a[0])`: frequency
descending, then value descending. -/
def entryRel (a b : ℚ × ℕ) : Prop := b.2 < a.2 ∨ (a.2 = b.2 ∧ b.1 ≤ a.1)

instance : DecidableRel entryRel := fun a b => by
  unfold entryRel; exact inferInstance

instance : IsTotal (ℚ × ℕ) entryRel :=
  ⟨by
    intro a b
    rcases Nat.lt_trichotomy a.2 b.2 with h | h | h
    · exact Or.inr (Or.inl h)
    · rcases le_total b.1 a.1 with h1 | h1
      · exact Or.inl (Or.inr ⟨h, h1⟩)
      · exact Or.inr (Or.inr ⟨h.symm, h1⟩)
    · exact Or.inl (Or.inl h)⟩

instance : IsTrans (ℚ × ℕ) entryRel :=
  ⟨by
    rintro a b c (h | ⟨h, h1⟩) (h' | ⟨h', h1'⟩)
    · exact Or.inl (h'.trans h)
    · exact Or.inl (h' ▸ h)
    · exact Or.inl (h ▸ h')
    · exact Or.inr ⟨h.trans h', h1'.trans h1⟩⟩

/-- Proxy selection over the rounded candidate list: `n ≤ 2` takes the
maximum; otherwise the frequency entries are sorted by the comparator
and the head is taken, with the mode/tie method label. -/
def selectProxy (l : List ℚ) : ℚ × String :=
  if l.length ≤ 2 then (listMaxD l, "max_when_few")
  else
    let entries := (freqEntries l).insertionSort entryRel
    let proxy := ((entries.head?).map Prod.fst).getD 0
    let topCount := ((entries.head?).map Prod.snd).getD 0
    let secondCount := ((entries[1]?).map Prod.snd).getD 0
    (proxy, if topCount = secondCount then "mode (tie→max)" else "mode")

/-- The comparator `(a, b) => b[1] - a[1]` used for `topValues`:
frequency descending only, stable on ties. -/
def tvRel (a b : ℚ × ℕ) : Prop := b.2 ≤ a.2

instance : DecidableRel tvRel := fun a b => by
  unfold tvRel; exact inferInstance

instance : IsTotal (ℚ × ℕ) tvRel := ⟨fun a b => le_total b.2 a.2⟩

instance : IsTrans (ℚ × ℕ) tvRel := ⟨fun _ _ _ h h' => le_trans h' h⟩

/-- The stored frequency table: entries of the rounded unfiltered metric
list, stably sorted by frequency descending. -/
def topValuesOf (metricAll : List ℚ) : List (ℚ × ℕ) :=
  (freqEntries (metricAll.map round2)).insertionSort tvRel

/-- The per-group statistics row (`stat` in `buildGroups`). -/
structure GroupStat where
  key : String
  Insurance : String
  CPT : String
  POS : String
  Modifiers : String
  Units : String
  n : ℕ
  proxy : ℚ
  method : String
  median : ℚ
  mean : ℚ
  min : ℚ
  max : ℚ
  nEqCharges : ℕ
  usedDecontaminate : Bool
  topValues : List (ℚ × ℕ)
  multiModal : Bool
  nearTie : Bool

/-- The body of the per-bucket loop in `buildGroups`, producing the
statistics row of the group. -/
def buildStat (cfg : Config) (key : String) (items : List EnrichedLine) :
    GroupStat :=
  let sampleG := ((items.head?).map fun d => d.g).getD ⟨"", "", "", "", ""⟩
  let metricAll := items.map (metricOf cfg)
  let mfp := metricForProxy cfg items
  let pm := selectProxy (mfp.map round2)
  let equalsChargesCount := (items.filter eqChargesB).length
  let tv := topValuesOf metricAll
  let pm2 :=
    match cfg.overrides key with
    | some q => (round2 q, "override")
    | none => pm
  { key := key
    Insurance := sampleG.Insurance
    CPT := sampleG.CPT
    POS := sampleG.POS
    Modifiers := sampleG.Modifiers
    Units := sampleG.Units
    n := items.length
    proxy := pm2.1
    method := pm2.2
    median := d3median metricAll
    mean := d3mean metricAll
    min := listMinD metricAll
    max := listMaxD metricAll
    nEqCharges := equalsChargesCount
    usedDecontaminate :=
      cfg.benchmark = "allowed" && cfg.decontaminate && equalsChargesCount > 0
    topValues := tv
    multiModal :=
      match tv with
      | a :: b :: _ => a.2 = b.2
      | _ => false
    nearTie :=
      match tv with
      | a :: b :: _ => (3 : ℚ) / 5 ≤ (b.2 : ℚ) / (a.2 : ℚ)
      | _ => false }

/-! ### Deviation classification -/

/-- Function `percentDelta` from the source: deviation percentage, defined as 0
when the reference is 0. -/
def percentDelta (v ref : ℚ) : ℚ :=
  if ref = 0 then 0 else (v - ref) / ref * 100

/-- One row of the line-by-line review output. -/
structure Issue where
  patient : String
  dos : String
  charges : ℚ
  metric : ℚ
  proxy : ℚ
  deviationPct : ℚ
  status : String
  explanation : String

/-- The per-line classification in the main analysis loop. -/
def lineIssue (cfg : Config) (stat : GroupStat) (d : EnrichedLine) : Issue :=
  let metric := metricOf cfg d
  let delta := percentDelta metric stat.proxy
  let absDelta := |delta|
  let lr : String × String :=
    if absDelta > cfg.threshold then
      if delta < 0 then
        (if cfg.benchmark = "paid" then "Underpaid" else "Underpayment",
         if cfg.benchmark = "paid" then
           "Paid is below typical. Check missing modifier, bundling, site-of-service, or incorrect units."
         else "Allowed is below typical for same group.")
      else
        (if cfg.benchmark = "paid" then "Overpaid" else "Overpayment",
         if cfg.benchmark = "paid" then
           "Paid is above typical. Could be variant code, bilateral/bundle paid separately, or POS mismatch."
         else "Allowed is above typical.")
    else
      ("Within expected range",
       if cfg.benchmark = "paid" then
         "Paid aligns with proxy typical payment for same payer/CPT/POS/mods/units."
       else "Allowed aligns with proxy contracted rate.")
  { patient := d.patient
    dos := d.dos
    charges := d.charges
    metric := metric
    proxy := stat.proxy
    deviationPct := delta
    status := lr.1
    explanation := lr.2 }

/-- All issue rows of one group. -/
def issuesOfGroup (cfg : Config) (lines : List EnrichedLine) (k : String) :
    List Issue :=
  (bucket cfg lines k).map (lineIssue cfg (buildStat cfg k (bucket cfg lines k)))

/-! ### Audit detectors -/

/-- The denial predicate of the `denials` filter. -/
def denialPredB (cfg : Config) (d : EnrichedLine) : Bool :=
  let bal := max 0 d.rawBalance
  let approxWriteOff :=
    d.charges > 0 && |d.adjustment + d.charges| < 1 / 100
      && d.insurancePaid = 0 && bal = 0
  let metricZero := metricOf cfg d = 0 && d.charges > 0
  approxWriteOff || metricZero

/-- The `denials` output collection (as enriched lines). -/
def denials (cfg : Config) (lines : List EnrichedLine) : List EnrichedLine :=
  lines.filter (denialPredB cfg)

/-- One per-patient aggregate of the unpaid-patient detector. -/
structure PatientAgg where
  Patient : String
  InsuranceList : String
  TotalCharges : ℚ
  TotalInsurancePaid : ℚ
  TotalAllowed : ℚ
  TotalBalance : ℚ
  AllZeroPaid : Bool
  UnpaidGap : ℚ

/-- The aggregate built for one patient from the lines of that patient. -/
def patientAgg (cfg : Config) (patient : String) (items : List EnrichedLine) :
    PatientAgg :=
  let totalCharges := (items.map fun d => d.charges).sum
  let totalInsPaid := (items.map fun d => d.insurancePaid).sum
  let totalBalance := (items.map fun d => max 0 d.rawBalance).sum
  let totalAllowed := (items.map fun d => d.allowed).sum
  { Patient := patient
    InsuranceList :=
      String.intercalate ", " (dedupFirst (items.map fun d => d.g.Insurance))
    TotalCharges := totalCharges
    TotalInsurancePaid := totalInsPaid
    TotalAllowed := totalAllowed
    TotalBalance := totalBalance
    AllZeroPaid := totalInsPaid = 0 && totalCharges > 0
    UnpaidGap :=
      max 0 ((if cfg.benchmark = "paid" then totalInsPaid else totalAllowed)
        - totalInsPaid) }

/-- The comparator `(a, b) => b.UnpaidGap - a.UnpaidGap`: gap descending. -/
def gapRel (a b : PatientAgg) : Prop := b.UnpaidGap ≤ a.UnpaidGap

instance : DecidableRel gapRel := fun a b => by
  unfold gapRel; exact inferInstance

instance : IsTotal PatientAgg gapRel := ⟨fun a b => le_total b.UnpaidGap a.UnpaidGap⟩

instance : IsTrans PatientAgg gapRel := ⟨fun _ _ _ h h' => le_trans h' h⟩

/-- The `unpaidPatients` output collection: per-patient aggregates
(patients in first-occurrence order), filtered to all-zero-paid, sorted
by unpaid gap descending. -/
def unpaidPatients (cfg : Config) (lines : List EnrichedLine) :
    List PatientAgg :=
  let byPatient := dedupFirst (lines.map fun d => d.patient)
  ((byPatient.map fun p =>
      patientAgg cfg p (lines.filter fun d => d.patient = p)).filter
    (fun p => p.AllZeroPaid)).insertionSort gapRel

/-! ### Basic lemmas about the helper functions -/

theorem mem_dedupFirst {α : Type} [DecidableEq α] {a : α} :
    ∀ {l : List α}, a ∈ dedupFirst l ↔ a ∈ l := by
  intro l
  induction l with
  | nil => simp [dedupFirst]
  | cons b t ih =>
    simp only [dedupFirst, List.mem_cons, List.mem_filter, ih,
      decide_eq_true_eq]
    by_cases hab : a = b
    · simp [hab]
    · simp [hab]

theorem nodup_dedupFirst {α : Type} [DecidableEq α] :
    ∀ {l : List α}, (dedupFirst l).Nodup := by
  intro l
  induction l with
  | nil => simp [dedupFirst]
  | cons b t ih =>
    rw [dedupFirst]
    refine List.Nodup.cons ?_ (List.Nodup.filter _ ih)
    intro hmem
    have h2 := (List.mem_filter.mp hmem).2
    simp at h2

theorem dedupFirst_ne_nil {α : Type} [DecidableEq α] {l : List α}
    (h : l ≠ []) : dedupFirst l ≠ [] := by
  cases l with
  | nil => exact absurd rfl h
  | cons a t => simp [dedupFirst]

theorem listMaxD_mem : ∀ {l : List ℚ}, l ≠ [] → listMaxD l ∈ l := by
  intro l h
  induction l with
  | nil => exact absurd rfl h
  | cons x t ih =>
    cases t with
    | nil => simp [listMaxD]
    | cons y s =>
      rw [listMaxD]
      rcases max_choice x (listMaxD (y :: s)) with hm | hm
      · rw [hm]; exact List.mem_cons_self _ _
      · rw [hm]; exact List.mem_cons_of_mem _ (ih (List.cons_ne_nil _ _))

theorem le_listMaxD : ∀ {l : List ℚ} {x : ℚ}, x ∈ l → x ≤ listMaxD l := by
  intro l
  induction l with
  | nil => intro x hx; simp at hx
  | cons a t ih =>
    intro x hx
    cases t with
    | nil =>
      rw [List.mem_singleton.mp hx]
      simp [listMaxD]
    | cons y s =>
      rw [listMaxD]
      rcases List.mem_cons.mp hx with rfl | hmem
      · exact le_max_left _ _
      · exact le_trans (ih hmem) (le_max_right _ _)

theorem mem_freqEntries {l : List ℚ} {v : ℚ} {c : ℕ} :
    (v, c) ∈ freqEntries l ↔ v ∈ l ∧ c = l.count v := by
  simp only [freqEntries, List.mem_map, Prod.mk.injEq]
  constructor
  · rintro ⟨w, hw, rfl, rfl⟩
    exact ⟨mem_dedupFirst.mp hw, rfl⟩
  · rintro ⟨hv, rfl⟩
    exact ⟨v, mem_dedupFirst.mpr hv, rfl, rfl⟩

theorem map_fst_freqEntries (l : List ℚ) :
    (freqEntries l).map Prod.fst = dedupFirst l := by
  simp only [freqEntries, List.map_map]
  exact List.map_id _

theorem freqEntries_ne_nil {l : List ℚ} (h : l ≠ []) : freqEntries l ≠ [] := by
  intro hc
  exact dedupFirst_ne_nil h (by simpa [freqEntries] using congrArg List.length hc)

/-! ### Claim theorems -/

/-- C1: over the nonempty rounded-to-cents candidate metric list of a
group, a list of at most 2 elements yields the maximum candidate with
method `max_when_few`; a longer list yields the value ranked top by
(frequency descending, value descending) — i.e. every candidate has
either strictly smaller frequency, or equal frequency and a value not
above the proxy — with method `mode` exactly when the top frequency
strictly exceeds the frequency of every other value, and `mode (tie→max)`
otherwise; in every case the selected proxy is a member of the list. -/
theorem proxy_selection_correct (l : List ℚ) (hne : l ≠ []) :
    (l.length ≤ 2 →
      selectProxy l = (listMaxD l, "max_when_few") ∧
        listMaxD l ∈ l ∧ ∀ x ∈ l, x ≤ listMaxD l) ∧
    (2 < l.length →
      ((selectProxy l).2 = "mode" ∨ (selectProxy l).2 = "mode (tie→max)") ∧
      ((selectProxy l).2 = "mode" ↔
        ∀ w ∈ l, w ≠ (selectProxy l).1 →
          l.count w < l.count (selectProxy l).1) ∧
      ∀ w ∈ l, l.count w < l.count (selectProxy l).1 ∨
        (l.count w = l.count (selectProxy l).1 ∧ w ≤ (selectProxy l).1)) ∧
    (selectProxy l).1 ∈ l := by
  by_cases hlen : l.length ≤ 2
  · have hsel : selectProxy l = (listMaxD l, "max_when_few") := by
      simp [selectProxy, hlen]
    refine ⟨fun _ => ⟨hsel, listMaxD_mem hne, fun x hx => le_listMaxD hx⟩,
      fun h2 => absurd hlen (by omega), ?_⟩
    rw [hsel]
    exact listMaxD_mem hne
  · obtain ⟨e0, tail, hE⟩ :
        ∃ e0 tail, (freqEntries l).insertionSort entryRel = e0 :: tail := by
      cases hcase : (freqEntries l).insertionSort entryRel with
      | nil =>
        exfalso
        apply freqEntries_ne_nil hne
        have hp := List.perm_insertionSort entryRel (freqEntries l)
        rw [hcase] at hp
        exact hp.symm.eq_nil
      | cons a t => exact ⟨a, t, rfl⟩
    have hperm : (e0 :: tail).Perm (freqEntries l) := by
      rw [← hE]; exact List.perm_insertionSort _ _
    have hsorted : List.Sorted entryRel (e0 :: tail) := by
      rw [← hE]; exact List.sorted_insertionSort _ _
    have he0 : e0.1 ∈ l ∧ e0.2 = l.count e0.1 := by
      refine mem_freqEntries.mp ?_
      rw [Prod.mk.eta]
      exact hperm.mem_iff.mp (List.mem_cons_self _ _)
    have hwmem : ∀ w ∈ l, (w, l.count w) ∈ e0 :: tail := fun w hw =>
      hperm.mem_iff.mpr (mem_freqEntries.mpr ⟨hw, rfl⟩)
    have hdom : ∀ w ∈ l, l.count w < l.count e0.1 ∨
        (l.count w = l.count e0.1 ∧ w ≤ e0.1) := by
      intro w hw
      rcases List.mem_cons.mp (hwmem w hw) with heq | htail
      · have h1 : w = e0.1 := congrArg Prod.fst heq
        exact Or.inr ⟨by rw [h1], le_of_eq h1⟩
      · have hrel := List.rel_of_sorted_cons hsorted _ htail
        rcases hrel with h | ⟨h, h'⟩
        · exact Or.inl (by rw [← he0.2]; exact h)
        · exact Or.inr ⟨by rw [← he0.2]; exact h.symm, h'⟩
    have hnodupfst : ((e0 :: tail).map Prod.fst).Nodup := by
      refine (hperm.map Prod.fst).nodup_iff.mpr ?_
      rw [map_fst_freqEntries]
      exact nodup_dedupFirst
    have htiebound : ∀ w ∈ l, w ≠ e0.1 →
        ∀ e1 rest, tail = e1 :: rest → l.count w ≤ e1.2 := by
      intro w hw hwne e1 rest hT
      have hm := hwmem w hw
      rw [hT] at hm
      rcases List.mem_cons.mp hm with heq | hm2
      · exact absurd (congrArg Prod.fst heq) hwne
      rcases List.mem_cons.mp hm2 with heq | hm3
      · exact le_of_eq (congrArg Prod.snd heq)
      · have hs2 : List.Sorted entryRel (e1 :: rest) := by
          have := hsorted.of_cons
          rwa [hT] at this
        rcases List.rel_of_sorted_cons hs2 _ hm3 with h | ⟨h, _⟩
        · exact le_of_lt h
        · exact le_of_eq h.symm
    cases tail with
    | nil =>
      have hsel : selectProxy l =
          (e0.1, if e0.2 = 0 then "mode (tie→max)" else "mode") := by
        simp [selectProxy, hlen, hE]
      have hpos : 0 < e0.2 := by
        rw [he0.2]; exact List.count_pos_iff.mpr he0.1
      have hmode : selectProxy l = (e0.1, "mode") := by
        rw [hsel, if_neg (by omega)]
      rw [hmode]
      refine ⟨fun hsmall => absurd hsmall hlen, fun _ => ⟨Or.inl rfl, ?_, hdom⟩,
        he0.1⟩
      constructor
      · intro _ w hw hwne
        rcases List.mem_cons.mp (hwmem w hw) with heq | htail
        · exact absurd (congrArg Prod.fst heq) hwne
        · simp at htail
      · intro _
        rfl
    | cons e1 rest =>
      have hsel : selectProxy l =
          (e0.1, if e0.2 = e1.2 then "mode (tie→max)" else "mode") := by
        simp [selectProxy, hlen, hE]
      have he1 : e1.1 ∈ l ∧ e1.2 = l.count e1.1 := by
        refine mem_freqEntries.mp ?_
        rw [Prod.mk.eta]
        exact hperm.mem_iff.mp (List.mem_cons_of_mem _ (List.mem_cons_self _ _))
      have hne01 : e0.1 ≠ e1.1 := by
        have := hnodupfst
        simp only [List.map_cons, List.nodup_cons, List.mem_cons] at this
        exact fun hc => this.1 (Or.inl hc)
      have hle10 : e1.2 ≤ e0.2 := by
        rcases List.rel_of_sorted_cons hsorted _ (List.mem_cons_self _ _) with
          h | ⟨h, _⟩
        · exact le_of_lt h
        · exact le_of_eq h.symm
      have hiff : (e0.2 ≠ e1.2) ↔
          ∀ w ∈ l, w ≠ e0.1 → l.count w < l.count e0.1 := by
        constructor
        · intro hne w hw hwne
          have hb := htiebound w hw hwne e1 rest rfl
          have : e1.2 < e0.2 := lt_of_le_of_ne hle10 (fun hc => hne hc.symm)
          rw [← he0.2]
          omega
        · intro hall hc
          have := hall e1.1 he1.1 (fun hc2 => hne01 hc2.symm)
          rw [← he0.2, ← he1.2] at this
          omega
      rw [hsel]
      refine ⟨fun hsmall => absurd hsmall hlen, fun _ => ⟨?_, ?_, hdom⟩, he0.1⟩
      · by_cases hc : e0.2 = e1.2
        · rw [if_pos hc]; exact Or.inr rfl
        · rw [if_neg hc]; exact Or.inl rfl
      · by_cases hc : e0.2 = e1.2
        · rw [if_pos hc]
          constructor
          · intro h
            simp at h
          · intro hall
            exact absurd hc (hiff.mpr hall)
        · rw [if_neg hc]
          exact ⟨fun _ => hiff.mp hc, fun _ => rfl⟩

/-- Witness for C1 at the scenario list `[100, 100, 120]` of the spec. -/
theorem proxy_selection_correct_witness :
    ([(100 : ℚ), 100, 120] ≠ []) ∧
      (selectProxy [(100 : ℚ), 100, 120]).1 ∈ [(100 : ℚ), 100, 120] :=
  ⟨List.cons_ne_nil _ _,
    (proxy_selection_correct [(100 : ℚ), 100, 120] (List.cons_ne_nil _ _)).2.2⟩

/-- C2: a group whose active-variant key has a parseable override
entry gets that override (rounded to cents) as its proxy, method
`override`, whatever the group size or distribution, and every line of
the group reports that proxy. -/
theorem override_precedence (cfg : Config) (key : String)
    (items : List EnrichedLine) (q : ℚ)
    (h : cfg.overrides key = some q) :
    (buildStat cfg key items).proxy = round2 q ∧
    (buildStat cfg key items).method = "override" ∧
    ∀ d ∈ items, (lineIssue cfg (buildStat cfg key items) d).proxy = round2 q := by
  have h1 : (buildStat cfg key items).proxy = round2 q := by
    simp [buildStat, h]
  have h2 : (buildStat cfg key items).method = "override" := by
    simp [buildStat, h]
  refine ⟨h1, h2, fun d _ => ?_⟩
  have h3 : (lineIssue cfg (buildStat cfg key items) d).proxy =
      (buildStat cfg key items).proxy := rfl
  rw [h3, h1]

/-- A configuration with a single override entry, for the C2 witness. -/
def cfgOvW : Config :=
  { benchmark := "paid", threshold := 10, decontaminate := true,
    includeUnitsInKey := false,
    overrides := fun k => if k = "K" then some 45 else none }

/-- A plain concrete enriched line. -/
def lineW : EnrichedLine :=
  { patient := "P", dos := "", allowed := 30, insurancePaid := 30,
    charges := 60, adjustment := 0, rawBalance := 0,
    g := ⟨"Aetna", "99213", "11", "—", "1"⟩ }

/-- Witness for C2: override of 45.00 on key `K`. -/
theorem override_precedence_witness :
    cfgOvW.overrides "K" = some 45 ∧
      (buildStat cfgOvW "K" [lineW]).proxy = round2 45 ∧
      (buildStat cfgOvW "K" [lineW]).method = "override" :=
  ⟨by simp [cfgOvW], (override_precedence cfgOvW "K" [lineW] 45 (by simp [cfgOvW])).1,
    (override_precedence cfgOvW "K" [lineW] 45 (by simp [cfgOvW])).2.1⟩

/-- C3: the deviation percentage is defined as exactly 0 when the
proxy is 0, and a line in a zero-proxy group is classified
`Within expected range` with deviation 0 (the threshold is nonnegative,
as the UI slider keeps it in 1–30). -/
theorem zero_proxy_guard (cfg : Config) (stat : GroupStat) (d : EnrichedLine)
    (h0 : stat.proxy = 0) (ht : 0 ≤ cfg.threshold) :
    (∀ v : ℚ, percentDelta v 0 = 0) ∧
    (lineIssue cfg stat d).deviationPct = 0 ∧
    (lineIssue cfg stat d).status = "Within expected range" := by
  have hpd : ∀ v : ℚ, percentDelta v 0 = 0 := fun v => by
    simp [percentDelta]
  have hdelta : percentDelta (metricOf cfg d) stat.proxy = 0 := by
    rw [h0]; exact hpd _
  refine ⟨hpd, ?_, ?_⟩
  · show percentDelta (metricOf cfg d) stat.proxy = 0
    exact hdelta
  · show (if |percentDelta (metricOf cfg d) stat.proxy| > cfg.threshold
        then _ else _ : String × String).1 = _
    rw [hdelta]
    rw [if_neg (by simpa using not_lt.mpr ht)]

/-- A concrete zero-proxy group statistic, for the C3 witness. -/
def statZ : GroupStat :=
  { key := "k", Insurance := "A", CPT := "C", POS := "11", Modifiers := "—",
    Units := "1", n := 1, proxy := 0, method := "max_when_few", median := 0,
    mean := 0, min := 0, max := 0, nEqCharges := 0, usedDecontaminate := false,
    topValues := [(0, 1)], multiModal := false, nearTie := false }

/-- Witness for C3 at a zero-proxy group with the default threshold. -/
theorem zero_proxy_guard_witness :
    statZ.proxy = 0 ∧ (0 : ℚ) ≤ cfgOvW.threshold ∧
      (lineIssue cfgOvW statZ lineW).deviationPct = 0 ∧
      (lineIssue cfgOvW statZ lineW).status = "Within expected range" :=
  ⟨rfl, by norm_num [cfgOvW],
    (zero_proxy_guard cfgOvW statZ lineW rfl (by norm_num [cfgOvW])).2.1,
    (zero_proxy_guard cfgOvW statZ lineW rfl (by norm_num [cfgOvW])).2.2⟩

/-- C4: decontamination narrows the candidate list only when the
benchmark is the allowed amount, the setting is on, and the group mixes
allowed≈charges lines with allowed≠charges lines — in which case the
candidates become exactly the allowed amounts of the allowed≠charges
lines; in every other case the unfiltered metric list is used; and the
candidate list of a non-empty group is never empty. -/
theorem decontamination_correct (cfg : Config) (items : List EnrichedLine) :
    (cfg.benchmark ≠ "allowed" →
      metricForProxy cfg items = items.map (metricOf cfg)) ∧
    (cfg.benchmark = "allowed" →
      ¬(cfg.decontaminate = true ∧ (∃ d ∈ items, eqChargesB d = true) ∧
          (∃ d ∈ items, ¬eqChargesB d = true)) →
      metricForProxy cfg items = items.map (metricOf cfg)) ∧
    (cfg.benchmark = "allowed" → cfg.decontaminate = true →
      (∃ d ∈ items, eqChargesB d = true) → (∃ d ∈ items, ¬eqChargesB d = true) →
      metricForProxy cfg items =
        (items.filter fun d => ¬eqChargesB d).map fun d => d.allowed) ∧
    (items ≠ [] → metricForProxy cfg items ≠ []) := by
  have hnarrow : cfg.benchmark = "allowed" →
      cfg.decontaminate = true → (∃ d ∈ items, eqChargesB d = true) →
      (∃ d ∈ items, ¬eqChargesB d = true) →
      metricForProxy cfg items =
        (items.filter fun d => ¬eqChargesB d).map fun d => d.allowed := by
    intro hb hdec hEq hDiff
    obtain ⟨d0, hd0, hd0ne⟩ := hDiff
    have hfil : d0 ∈ items.filter fun d => ¬eqChargesB d :=
      List.mem_filter.mpr ⟨hd0, by simpa using hd0ne⟩
    have hne : ((items.filter fun d => ¬eqChargesB d).map fun d => d.allowed) ≠ [] := by
      intro hc
      rw [List.map_eq_nil_iff] at hc
      rw [hc] at hfil
      simp at hfil
    have hcond : (cfg.decontaminate && items.any eqChargesB
        && items.any fun d => ¬eqChargesB d) = true := by
      simp only [Bool.and_eq_true, List.any_eq_true]
      exact ⟨⟨hdec, hEq⟩, ⟨d0, hd0, by simpa using hd0ne⟩⟩
    simp only [metricForProxy]
    rw [if_pos hb, if_pos hcond, if_neg hne]
  have hflat : cfg.benchmark = "allowed" →
      ¬(cfg.decontaminate = true ∧ (∃ d ∈ items, eqChargesB d = true) ∧
          (∃ d ∈ items, ¬eqChargesB d = true)) →
      metricForProxy cfg items = items.map (metricOf cfg) := by
    intro hb hnot
    have hcond : ¬((cfg.decontaminate && items.any eqChargesB
        && items.any fun d => ¬eqChargesB d) = true) := by
      intro hc
      apply hnot
      simp only [Bool.and_eq_true, List.any_eq_true] at hc
      obtain ⟨⟨h1, d1, h2, h3⟩, d2, h4, h5⟩ := hc
      exact ⟨h1, ⟨d1, h2, h3⟩, ⟨d2, h4, by simpa using h5⟩⟩
    simp only [metricForProxy]
    rw [if_pos hb, if_neg hcond, ite_self]
  refine ⟨?_, hflat, hnarrow, ?_⟩
  · intro hb
    simp only [metricForProxy]
    rw [if_neg hb]
  · intro hne
    have hmapne : items.map (metricOf cfg) ≠ [] := by
      simpa [List.map_eq_nil_iff] using hne
    by_cases hb : cfg.benchmark = "allowed"
    · simp only [metricForProxy]
      rw [if_pos hb]
      by_cases hcond : (cfg.decontaminate && items.any eqChargesB
          && items.any fun d => ¬eqChargesB d) = true
      · rw [if_pos hcond]
        by_cases hnil : ((items.filter fun d => ¬eqChargesB d).map
            fun d => d.allowed) = []
        · rw [if_pos hnil]; exact hmapne
        · rw [if_neg hnil]; exact hnil
      · rw [if_neg hcond, ite_self]
        exact hmapne
    · simp only [metricForProxy]
      rw [if_neg hb]
      exact hmapne

/-- A line whose allowed amount equals its charges. -/
def lineEqW : EnrichedLine :=
  { patient := "P", dos := "", allowed := 60, insurancePaid := 60,
    charges := 60, adjustment := 0, rawBalance := 0,
    g := ⟨"Aetna", "99213", "11", "—", "1"⟩ }

/-- A line whose allowed amount differs from its charges. -/
def lineDiffW : EnrichedLine :=
  { patient := "Q", dos := "", allowed := 50, insurancePaid := 50,
    charges := 60, adjustment := 0, rawBalance := 0,
    g := ⟨"Aetna", "99213", "11", "—", "1"⟩ }

/-- The allowed-benchmark configuration with decontamination on. -/
def cfgAllW : Config :=
  { benchmark := "allowed", threshold := 10, decontaminate := true,
    includeUnitsInKey := false, overrides := fun _ => none }

/-- Witness for C4: a mixed two-line group narrows to the allowed≠charges
line. -/
theorem decontamination_correct_witness :
    cfgAllW.benchmark = "allowed" ∧ cfgAllW.decontaminate = true ∧
      (∃ d ∈ [lineEqW, lineDiffW], eqChargesB d = true) ∧
      (∃ d ∈ [lineEqW, lineDiffW], ¬eqChargesB d = true) ∧
      metricForProxy cfgAllW [lineEqW, lineDiffW] =
        ([lineEqW, lineDiffW].filter fun d => ¬eqChargesB d).map
          fun d => d.allowed :=
  ⟨rfl, rfl,
    ⟨lineEqW, List.mem_cons_self _ _, by norm_num [eqChargesB, lineEqW]⟩,
    ⟨lineDiffW, List.mem_cons_of_mem _ (List.mem_cons_self _ _),
      by norm_num [eqChargesB, lineDiffW]⟩,
    (decontamination_correct cfgAllW [lineEqW, lineDiffW]).2.2.1 rfl rfl
      ⟨lineEqW, List.mem_cons_self _ _, by norm_num [eqChargesB, lineEqW]⟩
      ⟨lineDiffW, List.mem_cons_of_mem _ (List.mem_cons_self _ _),
        by norm_num [eqChargesB, lineDiffW]⟩⟩

/-- A configuration benchmarking on paid, with no overrides and units
excluded from the key (the defaults). -/
def cfgPaid : Config :=
  { benchmark := "paid", threshold := 10, decontaminate := true,
    includeUnitsInKey := false, overrides := fun _ => none }

/-- A line paid a given amount, in a fixed group. -/
def payLine (q : ℚ) : EnrichedLine :=
  { patient := "P", dos := "", allowed := q, insurancePaid := q,
    charges := 500, adjustment := 0, rawBalance := 0,
    g := ⟨"Aetna", "99213", "11", "—", "1"⟩ }

/-- C5 (amended): the stored frequency table of every group is a
permutation of the value→frequency entries of the rounded unfiltered
metric list that is ranked by frequency descending; among entries of
equal frequency the stable sort keeps first-occurrence order of the
metric list (illustrated on `[10, 20, 20, 10]`), not value-descending
order. -/
theorem top_values_ranking (cfg : Config) (key : String)
    (items : List EnrichedLine) :
    (buildStat cfg key items).topValues =
      topValuesOf (items.map (metricOf cfg)) ∧
    ((buildStat cfg key items).topValues).Pairwise (fun a b => b.2 ≤ a.2) ∧
    ((buildStat cfg key items).topValues).Perm
      (freqEntries ((items.map (metricOf cfg)).map round2)) ∧
    topValuesOf [10, 20, 20, 10] = [((10 : ℚ), 2), (20, 2)] := by
  have h1 : (buildStat cfg key items).topValues =
      topValuesOf (items.map (metricOf cfg)) := rfl
  refine ⟨h1, ?_, ?_, ?_⟩
  · rw [h1]
    exact List.sorted_insertionSort tvRel _
  · rw [h1]
    exact List.perm_insertionSort tvRel _
  · norm_num [topValuesOf, freqEntries, dedupFirst, round2, tvRel,
      List.count_cons]

/-- C5 counterexample: the group whose metric list is
`[10, 20, 20, 10]` stores the tied table `[(10, 2), (20, 2)]` in
first-occurrence order, which is not ranked by value descending among
the equal frequencies. -/
theorem top_values_not_value_ranked :
    ¬ ((buildStat cfgPaid "k"
        [payLine 10, payLine 20, payLine 20, payLine 10]).topValues).Pairwise
      entryRel := by
  norm_num [buildStat, topValuesOf, freqEntries, dedupFirst, round2, tvRel,
    List.count_cons, entryRel, metricOf, payLine, cfgPaid]

/-- The raw record of the denial scenario of the spec: charges 200, no
insurer payment, no patient payment, no balance, adjustment −200. -/
def rawDenial : RawLine :=
  { Insurance := "Aetna", CPT := "99213", POS := "11", Modifiers := "",
    Units := "", Patient_Name := "P", Date_of_Service := "",
    Charges := 200, Insurance_Payment := 0, Patient_Payment := 0,
    Balance := 0, Adjustment := -200 }

/-- The enrichment of `rawDenial`. -/
def denialLineE : EnrichedLine :=
  { patient := "P", dos := "", allowed := 0, insurancePaid := 0,
    charges := 200, adjustment := -200, rawBalance := 0,
    g := ⟨"Aetna", "99213", "11", "—", "1"⟩ }

/-- C6: a line is in the Denials output iff it is a retained line
and either (a) its charges are positive, its adjustment cancels its
charges within 0.01, its insurer payment is 0 and its (clamped) balance
is 0, or (b) its active benchmark metric is exactly 0 while charges are
positive; and the concrete full write-off line (charges 200, paid 0,
patient payment 0, balance 0, adjustment −200) enriches as expected and
is a Denial under every configuration, hence under either benchmark. -/
theorem denials_correct (cfg : Config) (lines : List EnrichedLine)
    (d : EnrichedLine) :
    (d ∈ denials cfg lines ↔ d ∈ lines ∧
      ((0 < d.charges ∧ |d.adjustment + d.charges| < 1 / 100 ∧
          d.insurancePaid = 0 ∧ max 0 d.rawBalance = 0) ∨
        (metricOf cfg d = 0 ∧ 0 < d.charges))) ∧
    enrich rawDenial = some denialLineE ∧
    ∀ cfg2 : Config, denialLineE ∈ denials cfg2 [denialLineE] := by
  refine ⟨?_, ?_, ?_⟩
  · rw [denials, List.mem_filter]
    constructor
    · rintro ⟨hmem, hpred⟩
      refine ⟨hmem, ?_⟩
      rw [denialPredB] at hpred
      simp only [Bool.or_eq_true, Bool.and_eq_true, decide_eq_true_eq] at hpred
      tauto
    · rintro ⟨hmem, hpred⟩
      refine ⟨hmem, ?_⟩
      rw [denialPredB]
      simp only [Bool.or_eq_true, Bool.and_eq_true, decide_eq_true_eq]
      tauto
  · rw [enrich]
    rw [show trimStr rawDenial.CPT = "99213" from rfl]
    rw [if_neg (by decide)]
    simp only [rawDenial, denialLineE, Option.some.injEq,
      EnrichedLine.mk.injEq, GroupFields.mk.injEq]
    norm_num [computeAllowed, rawDenial, round2]
    and_intros <;> rfl
  · intro cfg2
    rw [denials]
    refine List.mem_filter.mpr ⟨List.mem_cons_self _ _, ?_⟩
    rw [denialPredB]
    simp only [Bool.or_eq_true, Bool.and_eq_true, decide_eq_true_eq]
    left
    norm_num [denialLineE]

/-- C7: a patient appears in the UnpaidPatients output iff the
total insurer-paid over their retained lines is exactly 0 while their
total charges are positive; the unpaid gap of each aggregate equals
`max 0 (benchmarkedTotal − insurancePaidTotal)` where the benchmarked
total sums the active benchmark metric over the lines of the patient;
the output is sorted descending by gap. -/
theorem unpaid_patients_correct (cfg : Config) (lines : List EnrichedLine) :
    (∀ name : String,
      (∃ p ∈ unpaidPatients cfg lines, p.Patient = name) ↔
        (name ∈ lines.map (fun d => d.patient) ∧
          ((lines.filter fun d => d.patient = name).map
              fun d => d.insurancePaid).sum = 0 ∧
          0 < ((lines.filter fun d => d.patient = name).map
              fun d => d.charges).sum)) ∧
    (∀ p ∈ unpaidPatients cfg lines,
      p.UnpaidGap = max 0
        (((lines.filter fun d => d.patient = p.Patient).map
            (metricOf cfg)).sum -
          ((lines.filter fun d => d.patient = p.Patient).map
            fun d => d.insurancePaid).sum)) ∧
    (unpaidPatients cfg lines).Pairwise
      (fun a b => b.UnpaidGap ≤ a.UnpaidGap) := by
  have hperm : (unpaidPatients cfg lines).Perm
      (((dedupFirst (lines.map fun d => d.patient)).map fun p =>
          patientAgg cfg p (lines.filter fun d => d.patient = p)).filter
        fun p => p.AllZeroPaid) := List.perm_insertionSort gapRel _
  have hmem : ∀ p, p ∈ unpaidPatients cfg lines ↔
      ∃ nm ∈ dedupFirst (lines.map fun d => d.patient),
        p = patientAgg cfg nm (lines.filter fun d => d.patient = nm) ∧
          p.AllZeroPaid = true := by
    intro p
    rw [hperm.mem_iff, List.mem_filter]
    constructor
    · rintro ⟨hmap, haz⟩
      obtain ⟨nm, hnm, heq⟩ := List.mem_map.mp hmap
      exact ⟨nm, hnm, heq.symm, haz⟩
    · rintro ⟨nm, hnm, heq, haz⟩
      exact ⟨List.mem_map.mpr ⟨nm, hnm, heq.symm⟩, haz⟩
  have hAZ : ∀ nm,
      (patientAgg cfg nm (lines.filter fun d => d.patient = nm)).AllZeroPaid
          = true ↔
        ((lines.filter fun d => d.patient = nm).map
            fun d => d.insurancePaid).sum = 0 ∧
        0 < ((lines.filter fun d => d.patient = nm).map
            fun d => d.charges).sum := by
    intro nm
    simp only [patientAgg, Bool.and_eq_true, decide_eq_true_eq]
  refine ⟨?_, ?_, ?_⟩
  · intro name
    constructor
    · rintro ⟨p, hp, rfl⟩
      obtain ⟨nm, hnm, heq, haz⟩ := (hmem p).mp hp
      have hpn : p.Patient = nm := by rw [heq]; rfl
      rw [hpn]
      rw [heq] at haz
      exact ⟨mem_dedupFirst.mp hnm, (hAZ nm).mp haz⟩
    · rintro ⟨hmm, hz, hc⟩
      refine ⟨patientAgg cfg name (lines.filter fun d => d.patient = name),
        ?_, rfl⟩
      exact (hmem _).mpr ⟨name, mem_dedupFirst.mpr hmm, rfl,
        (hAZ name).mpr ⟨hz, hc⟩⟩
  · intro p hp
    obtain ⟨nm, hnm, heq, haz⟩ := (hmem p).mp hp
    have hpn : p.Patient = nm := by rw [heq]; rfl
    rw [hpn, heq]
    show max 0 ((if cfg.benchmark = "paid"
        then ((lines.filter fun d => d.patient = nm).map
            fun d => d.insurancePaid).sum
        else ((lines.filter fun d => d.patient = nm).map
            fun d => d.allowed).sum)
      - ((lines.filter fun d => d.patient = nm).map
          fun d => d.insurancePaid).sum) = _
    by_cases hb : cfg.benchmark = "paid"
    · rw [if_pos hb]
      have hmm : ((lines.filter fun d => d.patient = nm).map
            (metricOf cfg)).sum =
          ((lines.filter fun d => d.patient = nm).map
            fun d => d.insurancePaid).sum := by
        congr 1
        exact List.map_congr_left fun d _ => by simp [metricOf, hb]
      rw [hmm]
    · rw [if_neg hb]
      have hmm : ((lines.filter fun d => d.patient = nm).map
            (metricOf cfg)).sum =
          ((lines.filter fun d => d.patient = nm).map
            fun d => d.allowed).sum := by
        congr 1
        exact List.map_congr_left fun d _ => by simp [metricOf, hb]
      rw [hmm]
  · exact List.sorted_insertionSort gapRel _

/-- A patient with positive charges and no insurer payment. -/
def unpaidLineW : EnrichedLine :=
  { patient := "P", dos := "", allowed := 150, insurancePaid := 0,
    charges := 300, adjustment := 0, rawBalance := 150,
    g := ⟨"Aetna", "99213", "11", "—", "1"⟩ }

/-- Witness for C7: the zero-paid patient `P` appears in the output. -/
theorem unpaid_patients_correct_witness :
    ∃ p ∈ unpaidPatients cfgPaid [unpaidLineW], p.Patient = "P" :=
  ((unpaid_patients_correct cfgPaid [unpaidLineW]).1 "P").mpr
    ⟨by simp [unpaidLineW], by norm_num [unpaidLineW],
      by norm_num [unpaidLineW]⟩

/-- C8 (amended): whenever the uppercased trimmed raw name contains
one of the fixed enumerated United Health Care variants as a substring,
the normalizer returns the canonical `United Health Care`; for every
other raw name it applies the cleanup (collapse repeated whitespace,
normalize hyphen spacing, strip a trailing `Inc`), which can itself
also produce the canonical string. -/
theorem normalize_insurance_correct (raw : String) :
    (matchesUHC (trimStr raw) = true →
      normalizeInsurance raw = "United Health Care") ∧
    (matchesUHC (trimStr raw) = false →
      normalizeInsurance raw = cleanupName (trimStr raw)) := by
  constructor
  · intro h
    rw [normalizeInsurance, if_pos h]
  · intro h
    rw [normalizeInsurance, if_neg (by simp [h])]

/-- Witness for C8 at a name containing the `UHC` variant. -/
theorem normalize_insurance_correct_witness :
    matchesUHC (trimStr "UHC of Texas") = true ∧
      normalizeInsurance "UHC of Texas" = "United Health Care" :=
  ⟨rfl, (normalize_insurance_correct "UHC of Texas").1 rfl⟩

/-- C8 counterexample: `"United \t Health Care"` (tab-separated)
matches none of the enumerated variants — its uppercase form contains
none of them as a substring, let alone equals one — yet the normalizer
still maps it to the canonical `United Health Care`, via the whitespace
cleanup branch; so canonical output is not produced *exactly* for the
enumerated variants. -/
theorem normalize_insurance_not_exactly_variants :
    normalizeInsurance "United \t Health Care" = "United Health Care" ∧
      matchesUHC (trimStr "United \t Health Care") = false :=
  ⟨rfl, rfl⟩

/-- C9: the `usedDecontaminate` flag of a group is true exactly when the
benchmark is the allowed amount, decontamination is enabled and at
least one line of the group has allowed≈charges (within 0.01); in
particular it is true for a concrete group of two allowed==charges
lines whose candidate metric list was never narrowed. -/
theorem used_decontaminate_flag (cfg : Config) (key : String)
    (items : List EnrichedLine) :
    ((buildStat cfg key items).usedDecontaminate = true ↔
      (cfg.benchmark = "allowed" ∧ cfg.decontaminate = true ∧
        ∃ d ∈ items, |d.allowed - d.charges| < 1 / 100)) ∧
    (buildStat cfgAllW "g" [lineEqW, lineEqW]).usedDecontaminate = true ∧
    metricForProxy cfgAllW [lineEqW, lineEqW] =
      [lineEqW, lineEqW].map (metricOf cfgAllW) := by
  refine ⟨?_, ?_, ?_⟩
  · have hshow : (buildStat cfg key items).usedDecontaminate =
        (cfg.benchmark = "allowed" && cfg.decontaminate
          && (items.filter eqChargesB).length > 0) := rfl
    rw [hshow]
    simp only [Bool.and_eq_true, decide_eq_true_eq]
    constructor
    · rintro ⟨⟨hb, hdec⟩, hlen⟩
      obtain ⟨d, hd⟩ := List.exists_mem_of_length_pos hlen
      have := List.mem_filter.mp hd
      exact ⟨hb, hdec, d, this.1, by simpa [eqChargesB] using this.2⟩
    · rintro ⟨hb, hdec, d, hd, habs⟩
      refine ⟨⟨hb, hdec⟩, ?_⟩
      have : d ∈ items.filter eqChargesB :=
        List.mem_filter.mpr ⟨hd, by simpa [eqChargesB] using habs⟩
      exact List.length_pos.mpr (List.ne_nil_of_mem this)
  · have : (buildStat cfgAllW "g" [lineEqW, lineEqW]).usedDecontaminate =
        (cfgAllW.benchmark = "allowed" && cfgAllW.decontaminate
          && ([lineEqW, lineEqW].filter eqChargesB).length > 0) := rfl
    rw [this]
    norm_num [cfgAllW, eqChargesB, lineEqW]
  · have hflat := (decontamination_correct cfgAllW [lineEqW, lineEqW]).2.1
    refine hflat rfl ?_
    rintro ⟨-, -, d, hd, hne⟩
    apply hne
    rcases List.mem_cons.mp hd with rfl | hd2
    · norm_num [eqChargesB, lineEqW]
    · rw [List.mem_singleton.mp hd2]
      norm_num [eqChargesB, lineEqW]

/-- The first line of the key-collision pair: payer `A|B`, CPT `C`. -/
def rawSep1 : RawLine :=
  { Insurance := "A|B", CPT := "C", POS := "11", Modifiers := "",
    Units := "", Patient_Name := "P1", Date_of_Service := "",
    Charges := 100, Insurance_Payment := 40, Patient_Payment := 0,
    Balance := 0, Adjustment := 0 }

/-- The second line of the key-collision pair: payer `A`, CPT `B|C`. -/
def rawSep2 : RawLine :=
  { Insurance := "A", CPT := "B|C", POS := "11", Modifiers := "",
    Units := "", Patient_Name := "P2", Date_of_Service := "",
    Charges := 100, Insurance_Payment := 70, Patient_Payment := 0,
    Balance := 0, Adjustment := 0 }

/-- The enrichment of `rawSep1`. -/
def sepLine1 : EnrichedLine :=
  { patient := "P1", dos := "", allowed := 40, insurancePaid := 40,
    charges := 100, adjustment := 0, rawBalance := 0,
    g := ⟨"A|B", "C", "11", "—", "1"⟩ }

/-- The enrichment of `rawSep2`. -/
def sepLine2 : EnrichedLine :=
  { patient := "P2", dos := "", allowed := 70, insurancePaid := 70,
    charges := 100, adjustment := 0, rawBalance := 0,
    g := ⟨"A", "B|C", "11", "—", "1"⟩ }

/-- C10: the `|`-joined group key is not injective on the grouping
attributes: two canonical lines — obtained by enriching two raw
records, one with the separator `|` inside its payer name — have
different grouping attributes yet the same key, so `buildGroups` puts
both in one bucket. -/
theorem group_key_collision :
    enrich rawSep1 = some sepLine1 ∧
    enrich rawSep2 = some sepLine2 ∧
    sepLine1.g ≠ sepLine2.g ∧
    keyFor cfgPaid sepLine1.g = keyFor cfgPaid sepLine2.g ∧
    groupKeys cfgPaid [sepLine1, sepLine2] = [keyFor cfgPaid sepLine1.g] ∧
    bucket cfgPaid [sepLine1, sepLine2] (keyFor cfgPaid sepLine1.g) =
      [sepLine1, sepLine2] := by
  refine ⟨?_, ?_, ?_, rfl, rfl, rfl⟩
  · rw [enrich]
    rw [show trimStr rawSep1.CPT = "C" from rfl]
    rw [if_neg (by decide)]
    simp only [rawSep1, sepLine1, Option.some.injEq, EnrichedLine.mk.injEq,
      GroupFields.mk.injEq]
    norm_num [computeAllowed, rawSep1, round2]
    and_intros <;> rfl
  · rw [enrich]
    rw [show trimStr rawSep2.CPT = "B|C" from rfl]
    rw [if_neg (by decide)]
    simp only [rawSep2, sepLine2, Option.some.injEq, EnrichedLine.mk.injEq,
      GroupFields.mk.injEq]
    norm_num [computeAllowed, rawSep2, round2]
    and_intros <;> rfl
  · intro hc
    have := congrArg GroupFields.Insurance hc
    simp [sepLine1, sepLine2] at this

end IPA
